import Mathlib

/-!
Verification of the quickwit CLI source-inspection module
(`quickwit-cli/src/source.rs`): the JSON flattening algorithm
`flatten_json`, the describe/list command executors, and the
command-argument model.
-/

namespace QuickwitSource

/-- JSON values, embedding `serde_json::Value`: objects are key/value member
lists (iterated in member order), arrays hold element lists, and the scalar
cases are null, booleans, numbers and strings. -/
inductive Value where
  | null : Value
  | bool (b : Bool) : Value
  | num (n : Int) : Value
  | str (s : String) : Value
  | arr (elems : List Value) : Value
  | obj (members : List (String × Value)) : Value

/-- `true` exactly on object values. -/
def Value.isObj : Value → Bool
  | .obj _ => true
  | _ => false

mutual

/-- Structural size of a JSON value (computable; the derived `sizeOf` of the
nested inductive is not). Used only as a termination measure. -/
def Value.sz : Value → Nat
  | .null => 1
  | .bool _ => 1
  | .num _ => 1
  | .str _ => 1
  | .arr es => 1 + szList es
  | .obj ms => 1 + szMembers ms
termination_by v => sizeOf v

/-- Summed size of a list of values. -/
def szList : List Value → Nat
  | [] => 0
  | v :: vs => v.sz + szList vs
termination_by l => sizeOf l

/-- Summed size of an object's member values. -/
def szMembers : List (String × Value) → Nat
  | [] => 0
  | (_, v) :: ms => v.sz + szMembers ms
termination_by l => sizeOf l

end

/-- The dotted-path step of `flatten_json`: Rust's
`if root.is_empty() { key } else { format!("{}.{}", root, key) }`. -/
def joinKey (root key : String) : String :=
  if root.isEmpty then key else root ++ "." ++ key

/-- Termination measure for the flattening work list: the total size of the
values still on the stack (the accumulated path strings do not count). -/
def stackMeasure (stack : List (String × Value)) : Nat :=
  (stack.map (fun p => p.2.sz)).sum

/-- The iterative work-list loop of `flatten_json` (source lines 190–205):
pop a `(root, value)` pair; an object pushes one work item per member with
the dot-extended path; anything else is appended to the accumulator as a
leaf. The Rust `Vec` stack pops from the end, so the head of the Lean list
is the top of the stack and pushed members are prepended reversed. -/
def flattenAux : List (String × Value) → List (String × Value) → List (String × Value)
  | acc, [] => acc
  | acc, (root, Value.obj members) :: rest =>
      flattenAux acc ((members.map (fun kv => (joinKey root kv.1, kv.2))).reverse ++ rest)
  | acc, (root, v) :: rest => flattenAux (acc ++ [(root, v)]) rest
termination_by acc stack => stackMeasure stack
decreasing_by
  · simp only [stackMeasure, List.map_append, List.sum_append, List.map_reverse,
      List.sum_reverse, List.map_map, List.map_cons, List.sum_cons]
    have hsum : ∀ ms : List (String × Value),
        (List.map ((fun p => p.2.sz) ∘ (fun kv => (joinKey root kv.1, kv.2))) ms).sum
          = szMembers ms := by
      intro ms
      induction ms with
      | nil => simp [szMembers]
      | cons kv r ihr =>
        obtain ⟨k, v⟩ := kv
        simp [szMembers, ihr]
    rw [hsum]
    have hobj : (Value.obj members).sz = 1 + szMembers members := by
      simp [Value.sz]
    omega
  all_goals
    simp only [stackMeasure, List.map_cons, List.sum_cons]
    cases v <;> simp_arith [Value.sz]

/-- `flatten_json` (source lines 186–207): flattens a JSON value into
(dotted path, leaf value) pairs, starting from the empty path. -/
def flatten_json (value : Value) : List (String × Value) :=
  flattenAux [] [("", value)]

mutual

/-- Specification-side flattening, written after the spec's words: an object
contributes the leaves of its members in member order, each reached under the
dot-extended path; any non-object subtree is a leaf and contributes exactly
one entry carrying the accumulated path. Compared against `flatten_json`
(the work-list implementation) in the refinement theorems below. -/
def specLeaves (pre : String) : Value → List (String × Value)
  | .obj members => specLeavesMembers pre members
  | v => [(pre, v)]
termination_by v => sizeOf v

/-- Leaves of an object's member list, in member order. -/
def specLeavesMembers (pre : String) : List (String × Value) → List (String × Value)
  | [] => []
  | (k, v) :: rest => specLeaves (joinKey pre k) v ++ specLeavesMembers pre rest
termination_by l => sizeOf l

end

/-- No string occurs twice in the list. -/
def keysNodup : List String → Bool
  | [] => true
  | k :: ks => (!(ks.contains k)) && keysNodup ks

mutual

/-- Key uniqueness at every object nesting level reached by the flattener. -/
def uniqueKeys : Value → Bool
  | .obj members =>
      keysNodup (members.map Prod.fst) && uniqueKeysMembers members
  | _ => true
termination_by v => sizeOf v

/-- Key uniqueness for each member value of an object. -/
def uniqueKeysMembers : List (String × Value) → Bool
  | [] => true
  | (_, v) :: rest => uniqueKeys v && uniqueKeysMembers rest
termination_by l => sizeOf l

end

/-- The itertools `sorted_by` combinator as used in the executors: a stable
sort by a string key. itertools collects and runs the standard stable sort;
stable insertion sort has the same input/output behaviour. -/
def sorted_by {α : Type} (key : α → String) (l : List α) : List α :=
  l.insertionSort (fun a b => key a ≤ key b)

/-- A configured source as fetched from the metastore: identifier, type and
nested JSON parameters (the fields of `SourceConfig` read by this module). -/
structure SourceDesc where
  source_id : String
  source_type : String
  params : Value

/-- The slice of fetched index metadata read by the executors: the source
list and the checkpoint entries (partition id, position), in whatever order
the metastore returned them. -/
structure IndexMetadata where
  sources : List SourceDesc
  checkpoint : List (String × String)

/-- `SourceRow` (source lines 161–167). -/
structure SourceRow where
  source_id : String
  source_type : String
deriving DecidableEq

/-- `ParamsRow` (source lines 113–119). -/
structure ParamsRow where
  key : String
  value : Value

/-- `CheckpointRow` (source lines 105–111). -/
structure CheckpointRow where
  partition_id : String
  offset : String

/-- The three tables printed by the describe command, in print order. -/
structure DescribeOutput where
  source_table : List SourceRow
  params_table : List ParamsRow
  checkpoint_table : List CheckpointRow

/-- Row construction of `describe_source_cli` after the metadata fetch
(source lines 126–155): linear scan for the requested source id (error
`Source `{id}` does not exist.` when absent), a single source row, the
flattened parameters sorted by key, and the checkpoint entries sorted by
partition id. -/
def describe_source_rows (source_id : String) (meta : IndexMetadata) :
    Except String DescribeOutput :=
  match meta.sources.find? (fun source => source.source_id == source_id) with
  | none => .error ("Source `" ++ source_id ++ "` does not exist.")
  | some source =>
      .ok { source_table := [⟨source.source_id, source.source_type⟩]
            params_table :=
              sorted_by ParamsRow.key
                ((flatten_json source.params).map (fun kv => ⟨kv.1, kv.2⟩))
            checkpoint_table :=
              sorted_by CheckpointRow.partition_id
                (meta.checkpoint.map (fun pp => ⟨pp.1, pp.2⟩)) }

/-- `describe_source_cli` (source lines 121–159) with the two collaborator
calls stubbed by their results: resolving the metastore and fetching the
index metadata each either fail (the error is returned and nothing is
printed) or succeed; on success the three tables are built and printed by
the single final `println!`, modelled by the `.ok` payload. -/
def describe_source_cli (resolved : Except String Unit)
    (fetched : Except String IndexMetadata) (source_id : String) :
    Except String DescribeOutput := do
  let _ ← resolved
  let meta ← fetched
  describe_source_rows source_id meta

/-- Row construction of `list_sources_cli` (source lines 173–180): every
source becomes a row, sorted by source id. -/
def list_sources_rows (meta : IndexMetadata) : List SourceRow :=
  sorted_by SourceRow.source_id
    (meta.sources.map (fun source => ⟨source.source_id, source.source_type⟩))

/-- `list_sources_cli` (source lines 169–184) with the collaborator calls
stubbed by their results; the `.ok` payload models the single `println!` of
the one table. -/
def list_sources_cli (resolved : Except String Unit)
    (fetched : Except String IndexMetadata) :
    Except String (List SourceRow) := do
  let _ ← resolved
  let meta ← fetched
  pure (list_sources_rows meta)

/-- `DescribeSourceArgs` (source lines 30–35). -/
structure DescribeSourceArgs where
  metastore_uri : String
  index_id : String
  source_id : String

/-- `ListSourcesArgs` (source lines 37–41). -/
structure ListSourcesArgs where
  metastore_uri : String
  index_id : String

/-- Raw CLI argument values as seen after clap matching: each argument is
present with a value or absent. -/
structure RawSourceArgs where
  metastore_uri : Option String
  index_id : Option String
  source_id : Option String

/-- Parse failures: a missing/invalid argument, or a malformed metastore
URI rejected by normalization. -/
inductive ParseError where
  | argumentError (arg : String)
  | uriError (msg : String)

/-- Modelled from the spec: the clap declarations that make `metastore-uri`,
`index-id` and `source-id` required for `describe` live in the CLI app
builder, which is not part of this source file; clap rejects an invocation
missing a required argument with an argument error before any handler or
network call runs. `parse_describe_args` (source lines 69–87) then reads the
three values and normalizes the URI (normalization is the external
`quickwit_common::uri::normalize_uri`, passed here as a parameter). The
whole parse is a total, synchronous function with no I/O. -/
def parse_describe_args (normalizeUri : String → Except String String)
    (raw : RawSourceArgs) : Except ParseError DescribeSourceArgs :=
  match raw.metastore_uri with
  | none => .error (.argumentError "metastore-uri")
  | some uri =>
      match raw.index_id with
      | none => .error (.argumentError "index-id")
      | some index_id =>
          match raw.source_id with
          | none => .error (.argumentError "source-id")
          | some source_id =>
              match normalizeUri uri with
              | .error e => .error (.uriError e)
              | .ok metastore_uri => .ok ⟨metastore_uri, index_id, source_id⟩

/-- Modelled from the spec, like `parse_describe_args`: the `list`
subcommand requires `metastore-uri` and `index-id` (source lines 89–102). -/
def parse_list_args (normalizeUri : String → Except String String)
    (raw : RawSourceArgs) : Except ParseError ListSourcesArgs :=
  match raw.metastore_uri with
  | none => .error (.argumentError "metastore-uri")
  | some uri =>
      match raw.index_id with
      | none => .error (.argumentError "index-id")
      | some index_id =>
          match normalizeUri uri with
          | .error e => .error (.uriError e)
          | .ok metastore_uri => .ok ⟨metastore_uri, index_id⟩

/-- The parameters of the spec's end-to-end example:
`{"topic":"t1","auth":{"user":"bob","token":"x"}}`. -/
def exampleParams : Value :=
  Value.obj [("topic", Value.str "t1"),
    ("auth", Value.obj [("user", Value.str "bob"), ("token", Value.str "x")])]

/-- Source `{"a","file"}` of the spec's describe/list examples. -/
def sourceA : SourceDesc := ⟨"a", "file", Value.null⟩

/-- Source `{"b","kafka"}` of the spec's describe/list examples. -/
def sourceB : SourceDesc := ⟨"b", "kafka", Value.null⟩

/-- The two-source index of the spec's describe/list examples. -/
def exampleIndexMeta : IndexMetadata := ⟨[sourceA, sourceB], []⟩

/-- An index whose checkpoint holds partitions p2 and p1, fetched in that
order. -/
def checkpointMeta : IndexMetadata :=
  ⟨[⟨"src", "file", Value.obj []⟩], [("p2", "10"), ("p1", "5")]⟩

/-! ### Refinement of the work-list flattener by the spec-side leaves -/

theorem szMembers_eq_sum (ms : List (String × Value)) :
    szMembers ms = (ms.map (fun p => p.2.sz)).sum := by
  induction ms with
  | nil => simp [szMembers]
  | cons kv rest ih =>
    obtain ⟨k, v⟩ := kv
    simp [szMembers, ih]

/-- Every value has positive size. -/
theorem Value.sz_pos (v : Value) : 0 < v.sz := by
  cases v <;> simp [Value.sz]

theorem stackMeasure_nil : stackMeasure [] = 0 := rfl

theorem stackMeasure_cons (p : String × Value) (l : List (String × Value)) :
    stackMeasure (p :: l) = p.2.sz + stackMeasure l := by
  simp [stackMeasure]

theorem stackMeasure_append (l₁ l₂ : List (String × Value)) :
    stackMeasure (l₁ ++ l₂) = stackMeasure l₁ + stackMeasure l₂ := by
  simp [stackMeasure]

theorem stackMeasure_reverse (l : List (String × Value)) :
    stackMeasure l.reverse = stackMeasure l := by
  simp [stackMeasure, List.sum_reverse]

theorem stackMeasure_map_keys (f : String × Value → String)
    (ms : List (String × Value)) :
    stackMeasure (ms.map (fun kv => (f kv, kv.2))) = szMembers ms := by
  induction ms with
  | nil => simp [stackMeasure, szMembers]
  | cons kv rest ih =>
    obtain ⟨k, v⟩ := kv
    simp [stackMeasure, szMembers] at ih ⊢
    omega

theorem stackMeasure_expand_lt (root : String) (ms : List (String × Value))
    (rest : List (String × Value)) :
    stackMeasure ((ms.map (fun kv => (joinKey root kv.1, kv.2))).reverse ++ rest)
      < stackMeasure ((root, Value.obj ms) :: rest) := by
  rw [stackMeasure_append, stackMeasure_reverse, stackMeasure_cons,
    stackMeasure_map_keys]
  have h1 : ((root, Value.obj ms).2).sz = (Value.obj ms).sz := rfl
  have h2 : (Value.obj ms).sz = 1 + szMembers ms := by simp [Value.sz]
  omega

/-- Spec-side leaves of a whole work stack, in stack order. -/
def stackLeaves (stack : List (String × Value)) : List (String × Value) :=
  (stack.map (fun p => specLeaves p.1 p.2)).flatten

theorem stackLeaves_nil : stackLeaves [] = [] := rfl

theorem stackLeaves_cons (p : String × Value) (l : List (String × Value)) :
    stackLeaves (p :: l) = specLeaves p.1 p.2 ++ stackLeaves l := by
  simp [stackLeaves]

theorem stackLeaves_append (l₁ l₂ : List (String × Value)) :
    stackLeaves (l₁ ++ l₂) = stackLeaves l₁ ++ stackLeaves l₂ := by
  simp [stackLeaves]

theorem stackLeaves_perm_reverse (l : List (String × Value)) :
    (stackLeaves l.reverse).Perm (stackLeaves l) :=
  List.Perm.flatten ((l.reverse_perm).map _)

theorem stackLeaves_map_members (root : String) (ms : List (String × Value)) :
    stackLeaves (ms.map (fun kv => (joinKey root kv.1, kv.2)))
      = specLeavesMembers root ms := by
  induction ms with
  | nil => simp [stackLeaves, specLeavesMembers]
  | cons kv rest ih =>
    obtain ⟨k, v⟩ := kv
    simp only [List.map_cons, stackLeaves_cons, specLeavesMembers, ih]

/-- Non-object values are their own single leaf. -/
theorem specLeaves_leaf (pre : String) (v : Value) (h : v.isObj = false) :
    specLeaves pre v = [(pre, v)] := by
  cases v <;> simp [specLeaves] <;> simp [Value.isObj] at h

/-- Work-list invariant: running the loop appends exactly the spec-side
leaves of the remaining stack (up to permutation; the loop visits members in
reversed push order). -/
theorem flattenAux_perm_stackLeaves :
    ∀ (n : Nat) (stack acc : List (String × Value)), stackMeasure stack < n →
      (flattenAux acc stack).Perm (acc ++ stackLeaves stack) := by
  intro n
  induction n with
  | zero => intro stack acc h; exact absurd h (Nat.not_lt_zero _)
  | succ n ih =>
    intro stack acc h
    match stack with
    | [] => simp [flattenAux, stackLeaves_nil]
    | (root, v) :: rest =>
      by_cases hobj : v.isObj = true
      · obtain ⟨ms, rfl⟩ : ∃ ms, v = Value.obj ms := by
          cases v <;> simp [Value.isObj] at hobj ⊢
        rw [show flattenAux acc ((root, Value.obj ms) :: rest)
            = flattenAux acc
                ((ms.map (fun kv => (joinKey root kv.1, kv.2))).reverse ++ rest) from by
          simp [flattenAux]]
        have hm : stackMeasure
            ((ms.map (fun kv => (joinKey root kv.1, kv.2))).reverse ++ rest) < n := by
          have h1 := stackMeasure_expand_lt root ms rest
          omega
        refine (ih _ acc hm).trans (List.Perm.append_left acc ?_)
        rw [stackLeaves_append, stackLeaves_cons]
        refine List.Perm.append_right _ ?_
        refine (stackLeaves_perm_reverse _).trans ?_
        rw [stackLeaves_map_members]
        simp [specLeaves]
      · have hleaf : flattenAux acc ((root, v) :: rest)
            = flattenAux (acc ++ [(root, v)]) rest := by
          cases v <;> first
            | (simp [flattenAux]; done)
            | exact absurd rfl hobj
        rw [hleaf]
        have hm : stackMeasure rest < n := by
          rw [stackMeasure_cons] at h
          have hsnd : ((root, v).2) = v := rfl
          rw [hsnd] at h
          have hpos := Value.sz_pos v
          omega
        refine (ih rest _ hm).trans ?_
        rw [stackLeaves_cons, specLeaves_leaf _ _ (by simpa using hobj),
          List.append_assoc]

/-- `flatten_json` produces, up to permutation, exactly the spec-side leaves
of its input under the empty path. -/
theorem flatten_json_perm_specLeaves (v : Value) :
    (flatten_json v).Perm (specLeaves "" v) := by
  have h := flattenAux_perm_stackLeaves (stackMeasure [("", v)] + 1)
    [("", v)] [] (by omega)
  simpa [flatten_json, stackLeaves_cons, stackLeaves_nil] using h

/-- A member value is no larger than the whole member list. -/
theorem sz_le_of_mem_members {ms : List (String × Value)} {k : String}
    {v : Value} (h : (k, v) ∈ ms) : v.sz ≤ szMembers ms := by
  induction ms with
  | nil => simp at h
  | cons kv rest ih =>
    obtain ⟨k', v'⟩ := kv
    have hsz : szMembers ((k', v') :: rest) = v'.sz + szMembers rest := by
      simp [szMembers]
    rcases List.mem_cons.mp h with heq | hmem
    · obtain ⟨h1, h2⟩ := Prod.mk.injEq .. ▸ heq
      subst h2
      omega
    · have := ih hmem
      have := Value.sz_pos v'
      omega

/-- Member-list version of `specLeaves_not_obj`, assuming the property for
every member value. -/
theorem specLeavesMembers_not_obj (pre : String) (ms : List (String × Value))
    (H : ∀ k v, (k, v) ∈ ms → ∀ pre₂ p w, (p, w) ∈ specLeaves pre₂ v →
      w.isObj = false) :
    ∀ p w, (p, w) ∈ specLeavesMembers pre ms → w.isObj = false := by
  induction ms with
  | nil => intro p w hmem; simp [specLeavesMembers] at hmem
  | cons kv rest ih =>
    obtain ⟨k, v⟩ := kv
    intro p w hmem
    rw [specLeavesMembers, List.mem_append] at hmem
    rcases hmem with hmem | hmem
    · exact H k v (List.mem_cons_self _ _) _ p w hmem
    · exact ih (fun k' v' h' => H k' v' (List.mem_cons_of_mem _ h')) p w hmem

/-- Spec-side leaves are never objects. -/
theorem specLeaves_not_obj :
    ∀ (n : Nat) (v : Value), v.sz < n →
      ∀ pre p w, (p, w) ∈ specLeaves pre v → w.isObj = false := by
  intro n
  induction n with
  | zero => intro v hv; exact absurd hv (Nat.not_lt_zero _)
  | succ n ih =>
    intro v hv pre p w hmem
    cases v
    case obj ms =>
      refine specLeavesMembers_not_obj pre ms ?_ p w
        (by simpa [specLeaves] using hmem)
      intro k v' hkv pre₂ p₂ w₂ hm₂
      have h1 : v'.sz ≤ szMembers ms := sz_le_of_mem_members hkv
      have h2 : (Value.obj ms).sz = 1 + szMembers ms := by simp [Value.sz]
      exact ih v' (by omega) pre₂ p₂ w₂ hm₂
    all_goals
      simp [specLeaves] at hmem
      obtain ⟨hp, hw⟩ := hmem
      subst hw
      simp [Value.isObj]

/-! ### The stable sort used by the executors -/

theorem sorted_by_perm {α : Type} (key : α → String) (l : List α) :
    (sorted_by key l).Perm l :=
  List.perm_insertionSort _ l

theorem sorted_by_sorted {α : Type} (key : α → String) (l : List α) :
    (sorted_by key l).Sorted (fun a b => key a ≤ key b) := by
  haveI : IsTotal α (fun a b => key a ≤ key b) :=
    ⟨fun a b => le_total (key a) (key b)⟩
  haveI : IsTrans α (fun a b => key a ≤ key b) :=
    ⟨fun _ _ _ hab hbc => le_trans hab hbc⟩
  exact List.sorted_insertionSort _ l

/-- A ≤-sorted list whose keys are distinct is strictly sorted. -/
theorem sorted_lt_of_sorted_le_nodup {α : Type} (key : α → String)
    {l : List α} (hs : l.Sorted (fun a b => key a ≤ key b))
    (hn : (l.map key).Nodup) : l.Sorted (fun a b => key a < key b) := by
  have hne : l.Pairwise (fun a b => key a ≠ key b) := List.pairwise_map.mp hn
  exact (List.Pairwise.and hs hne).imp (fun h => lt_of_le_of_ne h.1 h.2)

/-- Sorting by key is insensitive to the input order when the keys are
pairwise distinct. -/
theorem sorted_by_eq_of_perm {α : Type} (key : α → String) {l₁ l₂ : List α}
    (hp : l₁.Perm l₂) (hn : (l₁.map key).Nodup) :
    sorted_by key l₁ = sorted_by key l₂ := by
  haveI : IsAntisymm α (fun a b => key a < key b) :=
    ⟨fun _ _ h1 h2 => absurd h2 (lt_asymm h1)⟩
  have hperm : (sorted_by key l₁).Perm (sorted_by key l₂) :=
    ((sorted_by_perm key l₁).trans hp).trans (sorted_by_perm key l₂).symm
  have hn₁ : ((sorted_by key l₁).map key).Nodup :=
    (((sorted_by_perm key l₁).map key).nodup_iff).mpr hn
  have hn₂ : ((sorted_by key l₂).map key).Nodup :=
    (((sorted_by_perm key l₂).map key).nodup_iff).mpr (((hp.map key).nodup_iff).mp hn)
  exact List.eq_of_perm_of_sorted hperm
    (sorted_lt_of_sorted_le_nodup key (sorted_by_sorted key l₁) hn₁)
    (sorted_lt_of_sorted_le_nodup key (sorted_by_sorted key l₂) hn₂)

/-- A filter returning a singleton means the linear scan finds it. -/
theorem find?_of_filter_eq_singleton {α : Type} {p : α → Bool} {l : List α}
    {a : α} (h : l.filter p = [a]) : l.find? p = some a := by
  induction l with
  | nil => simp at h
  | cons x xs ih =>
    by_cases hx : p x
    · rw [List.filter_cons_of_pos hx] at h
      rw [List.find?_cons_of_pos _ hx]
      exact congrArg some (List.cons_eq_cons.mp h).1
    · rw [List.filter_cons_of_neg (by simpa using hx)] at h
      rw [List.find?_cons_of_neg _ (by simpa using hx)]
      exact ih h

/-! ### Claim theorems -/

/-- C1: For every JSON object with unique keys at every nesting level,
`flatten_json` produces, up to order, exactly the spec-side leaves
`specLeaves "" v`: one output entry per non-object leaf, whose path is the
dot-joined sequence of object keys on the route from the root to that leaf
(the key alone when the accumulated path is empty, per `joinKey`). -/
theorem flatten_unique_keys_one_entry_per_leaf (v : Value)
    (h : uniqueKeys v = true) :
    (flatten_json v).Perm (specLeaves "" v) :=
  flatten_json_perm_specLeaves v

theorem flatten_unique_keys_one_entry_per_leaf_witness :
    uniqueKeys exampleParams = true ∧
    (flatten_json exampleParams).Perm (specLeaves "" exampleParams) :=
  ⟨by simp +decide [exampleParams, uniqueKeys, uniqueKeysMembers, keysNodup],
   flatten_unique_keys_one_entry_per_leaf exampleParams
     (by simp +decide [exampleParams, uniqueKeys, uniqueKeysMembers, keysNodup])⟩

/-- C2: Flattening `{"topic":"t1","auth":{"user":"bob","token":"x"}}` and
sorting the resulting rows ascending by path yields exactly
`[("auth.token","x"), ("auth.user","bob"), ("topic","t1")]` (this is the
params table the describe executor builds from these parameters). -/
theorem flatten_example_sorted :
    sorted_by ParamsRow.key
        ((flatten_json exampleParams).map (fun kv => ⟨kv.1, kv.2⟩))
      = [⟨"auth.token", Value.str "x"⟩, ⟨"auth.user", Value.str "bob"⟩,
         ⟨"topic", Value.str "t1"⟩] := by
  simp +decide [exampleParams, flatten_json, flattenAux, joinKey, sorted_by,
    List.insertionSort, List.orderedInsert]

/-- C3: For every raw CLI input missing a required argument (metastore-uri,
index-id or source-id for describe; metastore-uri or index-id for list),
parsing returns an `argumentError` failure. The parse functions are total
Lean functions of the raw input with no effects, so the error is reported
to the caller before any I/O can happen. -/
theorem parse_missing_required_argument_error :
    (∀ (normalizeUri : String → Except String String) (raw : RawSourceArgs),
        raw.metastore_uri = none ∨ raw.index_id = none ∨ raw.source_id = none →
        ∃ a, parse_describe_args normalizeUri raw
          = .error (.argumentError a)) ∧
    (∀ (normalizeUri : String → Except String String) (raw : RawSourceArgs),
        raw.metastore_uri = none ∨ raw.index_id = none →
        ∃ a, parse_list_args normalizeUri raw = .error (.argumentError a)) := by
  constructor
  · intro norm raw hmiss
    obtain ⟨mu, ii, si⟩ := raw
    rcases hmiss with h | h | h <;> subst h
    · exact ⟨"metastore-uri", rfl⟩
    · cases mu with
      | none => exact ⟨"metastore-uri", rfl⟩
      | some u => exact ⟨"index-id", rfl⟩
    · cases mu with
      | none => exact ⟨"metastore-uri", rfl⟩
      | some u =>
        cases ii with
        | none => exact ⟨"index-id", rfl⟩
        | some i => exact ⟨"source-id", rfl⟩
  · intro norm raw hmiss
    obtain ⟨mu, ii, si⟩ := raw
    rcases hmiss with h | h <;> subst h
    · exact ⟨"metastore-uri", rfl⟩
    · cases mu with
      | none => exact ⟨"metastore-uri", rfl⟩
      | some u => exact ⟨"index-id", rfl⟩

theorem parse_missing_required_argument_error_witness :
    ((RawSourceArgs.mk (some "file:///ms") none (some "src")).index_id = none) ∧
    ∃ a, parse_describe_args (fun u => .ok u)
        (RawSourceArgs.mk (some "file:///ms") none (some "src"))
      = .error (.argumentError a) :=
  ⟨rfl, parse_missing_required_argument_error.1 (fun u => .ok u)
    (RawSourceArgs.mk (some "file:///ms") none (some "src")) (Or.inr (Or.inl rfl))⟩

/-- C4: For every fetched index metadata and requested source id, when no
source matches the describe executor fails with the source-not-found error
whose message includes the requested id; when exactly one source matches,
the Source table is exactly one row with that source's id and type. -/
theorem describe_source_lookup_result (meta : IndexMetadata)
    (source_id : String) :
    ((∀ s ∈ meta.sources, s.source_id ≠ source_id) →
        describe_source_rows source_id meta
          = .error ("Source `" ++ source_id ++ "` does not exist.")) ∧
    (∀ s, meta.sources.filter (fun t => t.source_id == source_id) = [s] →
        ∃ out, describe_source_rows source_id meta = .ok out ∧
          out.source_table = [⟨s.source_id, s.source_type⟩]) := by
  constructor
  · intro hnone
    have hfind : meta.sources.find?
        (fun source => source.source_id == source_id) = none := by
      rw [List.find?_eq_none]
      intro x hx
      simpa using hnone x hx
    simp [describe_source_rows, hfind]
  · intro s hfilter
    have hfind : meta.sources.find?
        (fun source => source.source_id == source_id) = some s :=
      find?_of_filter_eq_singleton hfilter
    refine ⟨⟨[⟨s.source_id, s.source_type⟩],
      sorted_by ParamsRow.key
        ((flatten_json s.params).map (fun kv => ⟨kv.1, kv.2⟩)),
      sorted_by CheckpointRow.partition_id
        (meta.checkpoint.map (fun pp => ⟨pp.1, pp.2⟩))⟩, ?_, rfl⟩
    simp [describe_source_rows, hfind]

theorem describe_source_lookup_result_witness :
    describe_source_rows "c" exampleIndexMeta
      = .error ("Source `" ++ "c" ++ "` does not exist.") ∧
    ∃ out, describe_source_rows "b" exampleIndexMeta = .ok out ∧
      out.source_table = [⟨"b", "kafka"⟩] :=
  ⟨(describe_source_lookup_result exampleIndexMeta "c").1 (by decide),
   (describe_source_lookup_result exampleIndexMeta "b").2 sourceB rfl⟩

/-- C5: `flatten_json` never expands an array element-by-element: whenever
the work loop reaches an array (under any accumulated path, stack and
accumulator), it appends exactly one output entry holding the whole array
under the unchanged path — no index-based path segment is created — and a
top-level array flattens to the single entry with the empty path. -/
theorem flatten_arrays_are_leaves :
    (∀ (pre : String) (elems : List Value) (acc rest : List (String × Value)),
        flattenAux acc ((pre, Value.arr elems) :: rest)
          = flattenAux (acc ++ [(pre, Value.arr elems)]) rest) ∧
    (∀ elems : List Value,
        flatten_json (Value.arr elems) = [("", Value.arr elems)]) := by
  constructor
  · intro pre elems acc rest
    simp [flattenAux]
  · intro elems
    simp [flatten_json, flattenAux]

/-- C6 (as stated) fails on source lists with a repeated identifier: the
stable sort keeps the relative order of rows with equal ids, so two
permutations of the same duplicated-id list produce different row orders.
Here both inputs hold the same two sources with id `a` (types `file` and
`kafka`), in the two orders. -/
theorem list_sources_rows_order_dependent_counterexample :
    (IndexMetadata.mk [⟨"a", "file", Value.null⟩, ⟨"a", "kafka", Value.null⟩]
        []).sources.Perm
      (IndexMetadata.mk [⟨"a", "kafka", Value.null⟩, ⟨"a", "file", Value.null⟩]
        []).sources ∧
    list_sources_rows
        (IndexMetadata.mk [⟨"a", "file", Value.null⟩, ⟨"a", "kafka", Value.null⟩] [])
      ≠ list_sources_rows
        (IndexMetadata.mk [⟨"a", "kafka", Value.null⟩, ⟨"a", "file", Value.null⟩] []) :=
  ⟨List.Perm.swap _ _ [], by
    simp +decide [list_sources_rows, sorted_by, List.insertionSort,
      List.orderedInsert]⟩

/-- C6, amended: the list executor maps every source to a row (no
filtering, shown by the permutation) and its output is sorted ascending by
source id; and — provided the source identifiers are pairwise distinct —
the output is the same for any permutation of the same source list. -/
theorem list_sources_rows_sorted_total (meta : IndexMetadata) :
    (list_sources_rows meta).Perm
        (meta.sources.map (fun s => ⟨s.source_id, s.source_type⟩)) ∧
    (list_sources_rows meta).Sorted
        (fun a b => a.source_id ≤ b.source_id) ∧
    (∀ meta' : IndexMetadata, meta.sources.Perm meta'.sources →
        (meta.sources.map SourceDesc.source_id).Nodup →
        list_sources_rows meta = list_sources_rows meta') := by
  refine ⟨sorted_by_perm _ _, sorted_by_sorted _ _, ?_⟩
  intro meta' hperm hnodup
  unfold list_sources_rows
  apply sorted_by_eq_of_perm
  · exact hperm.map _
  · rw [List.map_map]
    exact hnodup

theorem list_sources_rows_sorted_total_witness :
    ((IndexMetadata.mk [sourceB, sourceA] []).sources.Perm
        (IndexMetadata.mk [sourceA, sourceB] []).sources ∧
      ((IndexMetadata.mk [sourceB, sourceA] []).sources.map
        SourceDesc.source_id).Nodup) ∧
    list_sources_rows (IndexMetadata.mk [sourceB, sourceA] [])
      = list_sources_rows (IndexMetadata.mk [sourceA, sourceB] []) :=
  ⟨⟨List.Perm.swap sourceA sourceB [], by decide⟩,
   (list_sources_rows_sorted_total (IndexMetadata.mk [sourceB, sourceA] [])).2.2
     (IndexMetadata.mk [sourceA, sourceB] [])
     (List.Perm.swap sourceA sourceB []) (by decide)⟩

/-- C7: The describe executor's Checkpoint table holds one row per
checkpoint entry (permutation) and is sorted ascending by partition id; on
the index with partitions fetched as p2 then p1 the table lists p1 before
p2. -/
theorem describe_checkpoint_rows_sorted :
    (∀ (meta : IndexMetadata) (source_id : String) (out : DescribeOutput),
        describe_source_rows source_id meta = .ok out →
        out.checkpoint_table.Perm
            (meta.checkpoint.map (fun pp => ⟨pp.1, pp.2⟩)) ∧
        out.checkpoint_table.Sorted
            (fun a b => a.partition_id ≤ b.partition_id)) ∧
    describe_source_rows "src" checkpointMeta
      = .ok ⟨[⟨"src", "file"⟩], [], [⟨"p1", "5"⟩, ⟨"p2", "10"⟩]⟩ := by
  constructor
  · intro meta source_id out hok
    cases hfind : meta.sources.find?
        (fun source => source.source_id == source_id) with
    | none => simp [describe_source_rows, hfind] at hok
    | some s =>
      rw [describe_source_rows, hfind] at hok
      obtain rfl : _ = out := Except.ok.inj hok
      exact ⟨sorted_by_perm _ _, sorted_by_sorted _ _⟩
  · simp +decide [describe_source_rows, checkpointMeta, flatten_json,
      flattenAux, sorted_by, List.insertionSort, List.orderedInsert]

theorem describe_checkpoint_rows_sorted_witness :
    describe_source_rows "src" checkpointMeta
      = .ok ⟨[⟨"src", "file"⟩], [], [⟨"p1", "5"⟩, ⟨"p2", "10"⟩]⟩ ∧
    (([⟨"p1", "5"⟩, ⟨"p2", "10"⟩] : List CheckpointRow).Perm
        (checkpointMeta.checkpoint.map (fun pp => ⟨pp.1, pp.2⟩)) ∧
      ([⟨"p1", "5"⟩, ⟨"p2", "10"⟩] : List CheckpointRow).Sorted
        (fun a b => a.partition_id ≤ b.partition_id)) := by
  have hok : describe_source_rows "src" checkpointMeta
      = .ok ⟨[⟨"src", "file"⟩], [], [⟨"p1", "5"⟩, ⟨"p2", "10"⟩]⟩ := by
    simp +decide [describe_source_rows, checkpointMeta, flatten_json,
      flattenAux, sorted_by, List.insertionSort, List.orderedInsert]
  exact ⟨hok,
    describe_checkpoint_rows_sorted.1 checkpointMeta "src" _ hok⟩

/-- C8: Flattening the empty object yields the empty sequence, and
flattening any top-level non-object value yields exactly one entry with the
empty path carrying that value. -/
theorem flatten_empty_and_scalar :
    flatten_json (Value.obj []) = [] ∧
    ∀ v : Value, v.isObj = false → flatten_json v = [("", v)] := by
  constructor
  · simp [flatten_json, flattenAux]
  · intro v h
    cases v <;> first
      | (simp [flatten_json, flattenAux]; done)
      | simp [Value.isObj] at h

theorem flatten_empty_and_scalar_witness :
    (Value.num 7).isObj = false ∧
    flatten_json (Value.num 7) = [("", Value.num 7)] :=
  ⟨rfl, flatten_empty_and_scalar.2 (Value.num 7) rfl⟩

/-- C9: Execution is all-or-nothing: a failed metastore resolution,
metadata fetch, or source lookup makes the command return that error with
no output (no `.ok` payload — the `.ok` payload models the single final
`println!`, so an error means nothing is printed); only when every step
succeeds does describe return all three tables and list its one table, each
in one printing action. -/
theorem execute_all_or_nothing (resolved : Except String Unit)
    (fetched : Except String IndexMetadata) (source_id : String) :
    (∀ e, resolved = .error e →
        describe_source_cli resolved fetched source_id = .error e ∧
        list_sources_cli resolved fetched = .error e) ∧
    (∀ e, resolved = .ok () → fetched = .error e →
        describe_source_cli resolved fetched source_id = .error e ∧
        list_sources_cli resolved fetched = .error e) ∧
    (∀ meta, resolved = .ok () → fetched = .ok meta →
        list_sources_cli resolved fetched = .ok (list_sources_rows meta) ∧
        (meta.sources.find? (fun source => source.source_id == source_id)
            = none →
          describe_source_cli resolved fetched source_id
            = .error ("Source `" ++ source_id ++ "` does not exist.")) ∧
        (∀ s, meta.sources.find? (fun source => source.source_id == source_id)
            = some s →
          ∃ out, describe_source_cli resolved fetched source_id = .ok out)) := by
  refine ⟨?_, ?_, ?_⟩
  · intro e h
    subst h
    exact ⟨rfl, rfl⟩
  · intro e h1 h2
    subst h1
    subst h2
    exact ⟨rfl, rfl⟩
  · intro meta h1 h2
    subst h1
    subst h2
    refine ⟨rfl, ?_, ?_⟩
    · intro hfind
      show describe_source_rows source_id meta = _
      simp [describe_source_rows, hfind]
    · intro s hfind
      refine ⟨⟨[⟨s.source_id, s.source_type⟩],
        sorted_by ParamsRow.key
          ((flatten_json s.params).map (fun kv => ⟨kv.1, kv.2⟩)),
        sorted_by CheckpointRow.partition_id
          (meta.checkpoint.map (fun pp => ⟨pp.1, pp.2⟩))⟩, ?_⟩
      show describe_source_rows source_id meta = _
      simp [describe_source_rows, hfind]

theorem execute_all_or_nothing_witness :
    (Except.error "metastore unavailable" : Except String Unit)
      = Except.error "metastore unavailable" ∧
    (describe_source_cli (Except.error "metastore unavailable")
        (Except.ok (IndexMetadata.mk [] [])) "s"
      = Except.error "metastore unavailable" ∧
     list_sources_cli (Except.error "metastore unavailable")
        (Except.ok (IndexMetadata.mk [] []))
      = Except.error "metastore unavailable") :=
  ⟨rfl, (execute_all_or_nothing (Except.error "metastore unavailable")
    (Except.ok (IndexMetadata.mk [] [])) "s").1 "metastore unavailable" rfl⟩

/-- C10: No output entry of `flatten_json` carries an object value — object
nodes are always expanded into work items, never emitted — and in
particular an empty nested object contributes no entry at all. -/
theorem flatten_never_emits_objects :
    (∀ (v : Value) (p : String) (w : Value),
        (p, w) ∈ flatten_json v → w.isObj = false) ∧
    flatten_json (Value.obj [("a", Value.obj [])]) = [] := by
  constructor
  · intro v p w hmem
    have hmem' : (p, w) ∈ specLeaves "" v :=
      ((flatten_json_perm_specLeaves v).mem_iff).mp hmem
    exact specLeaves_not_obj (v.sz + 1) v (by omega) "" p w hmem'
  · simp +decide [flatten_json, flattenAux, joinKey]

theorem flatten_never_emits_objects_witness :
    ("k", Value.bool true) ∈ flatten_json (Value.obj [("k", Value.bool true)]) ∧
    (Value.bool true).isObj = false :=
  ⟨by simp +decide [flatten_json, flattenAux, joinKey],
   flatten_never_emits_objects.1 (Value.obj [("k", Value.bool true)]) "k"
     (Value.bool true)
     (by simp +decide [flatten_json, flattenAux, joinKey])⟩

end QuickwitSource
